import Mathlib

/-
Verification of the precise citation-to-text matching and highlighting engine
of the clinical data extractor: the text index builder, the strict Ctrl+F-style
citation matcher, the highlight map builder, and the field-path inference
heuristic.  All string handling is modelled on explicit character lists;
floating point on-page coordinates (x, y) are pass-through data unused by the
engine and are omitted from the model.
-/

namespace ClinicalExtractor

/-- Drop trailing whitespace characters, the right half of JavaScript trim. -/
def dropTrailingWs (l : List Char) : List Char :=
  (l.reverse.dropWhile Char.isWhitespace).reverse

/-- Model of JavaScript String.prototype.trim on a character list. -/
def trimChars (l : List Char) : List Char :=
  dropTrailingWs (l.dropWhile Char.isWhitespace)

/-- Worker for collapsing whitespace runs; the flag records whether the
    previous character was whitespace (so the run emits a single space). -/
def collapseWsAux : Bool → List Char → List Char
  | _, [] => []
  | prevWs, c :: rest =>
    if c.isWhitespace then
      if prevWs then collapseWsAux true rest else ' ' :: collapseWsAux true rest
    else c :: collapseWsAux false rest

/-- Model of JavaScript replace of every whitespace run by a single space. -/
def collapseWsChars (l : List Char) : List Char := collapseWsAux false l

/-- Model of the pure-number test: one or more digits, an optional decimal
    point, then zero or more digits, anchored at both ends. -/
def isPureNumber (l : List Char) : Bool :=
  match l.takeWhile Char.isDigit, l.dropWhile Char.isDigit with
  | [], _ => false
  | _ :: _, [] => true
  | _ :: _, c :: rest => c == '.' && rest.all Char.isDigit

/-- Model of JavaScript String.prototype.indexOf: the position of the first
    occurrence of the needle, scanning left to right from accumulator i. -/
def indexOfChars (needle : List Char) : List Char → Nat → Option Nat
  | [], i => if needle.isPrefixOf ([] : List Char) then some i else none
  | c :: rest, i =>
    if needle.isPrefixOf (c :: rest) then some i else indexOfChars needle rest (i + 1)

/-- Model of JavaScript Array.prototype.join with a single-space separator. -/
def joinSpaceChars : List (List Char) → List Char
  | [] => []
  | [t] => t
  | t :: t2 :: rest => t ++ ' ' :: joinSpaceChars (t2 :: rest)

/-- Model of JavaScript String.prototype.includes. -/
def strIncludes (hay needle : String) : Bool :=
  (indexOfChars needle.data hay.data 0).isSome

/-- One indexed text fragment of a PDF page, as built during document load.
    The x and y pass-through coordinates are omitted from the model. -/
structure TextPosition where
  pageNum : Nat
  itemIndex : Nat
  text : String
  normalizedText : String
  charStart : Nat
  charEnd : Nat
  deriving Repr, DecidableEq, Inhabited

/-- Index the items of one page: page number p, next item position, running
    global character offset.  Each fragment advances the offset by its length
    plus one joining space, including empty fragments. -/
def indexPage (p : Nat) : Nat → Nat → List String → List TextPosition
  | _, _, [] => []
  | idx, off, t :: rest =>
    { pageNum := p, itemIndex := idx, text := t,
      normalizedText := String.mk (trimChars (t.data.map Char.toLower)),
      charStart := off, charEnd := off + t.length } ::
      indexPage p (idx + 1) (off + t.length + 1) rest

/-- Total character-offset advance contributed by one page's items. -/
def pageAdvance (items : List String) : Nat := (items.map fun t => t.length + 1).sum

/-- Build the flat index for the pages, numbering pages from p and threading
    the running global character offset. -/
def buildIndexFrom : Nat → Nat → List (List String) → List TextPosition
  | _, _, [] => []
  | p, off, pg :: rest =>
    indexPage p 0 off pg ++ buildIndexFrom (p + 1) (off + pageAdvance pg) rest

/-- The text index builder: pages are processed in order, numbered from 1,
    with one global running character offset across the whole document. -/
def buildIndex (pages : List (List String)) : List TextPosition :=
  buildIndexFrom 1 0 pages

/-- Output of the citation matcher. -/
structure SearchMatch where
  pageNum : Nat
  itemIndices : List Nat
  exactMatch : Bool
  confidence : ℚ
  deriving Repr, DecidableEq

/-- Query normalization of the matcher: lowercase, trim, collapse internal
    whitespace runs to single spaces. -/
def normalizeQuery (q : String) : List Char :=
  collapseWsChars (trimChars (q.data.map Char.toLower))

/-- The fragments of the index belonging to the given page. -/
def pageItemsOf (ti : List TextPosition) (hp : Nat) : List TextPosition :=
  ti.filter fun t => t.pageNum == hp

/-- All of a page's fragment texts joined with single spaces. -/
def pageConcat (items : List TextPosition) : List Char :=
  joinSpaceChars (items.map fun t => t.text.data)

/-- The page's concatenated text, lowercased, as scanned by the matcher. -/
def pageConcatLower (items : List TextPosition) : List Char :=
  (pageConcat items).map Char.toLower

/-- Worker of findItemsForCharRange: walk the page's items keeping the local
    character offset; collect the index of every item whose span overlaps the
    half-open range from startChar to endChar. -/
def findGo (startChar endChar : Nat) : List TextPosition → Nat → List Nat
  | [], _ => []
  | item :: rest, currentChar =>
    if startChar < currentChar + item.text.length ∧ currentChar < endChar then
      item.itemIndex :: findGo startChar endChar rest (currentChar + item.text.length + 1)
    else
      findGo startChar endChar rest (currentChar + item.text.length + 1)

/-- Given a character range in the concatenated page text, find which item
    indices it spans, using the same length-plus-one-separator accounting. -/
def findItemsForCharRange (pageItems : List TextPosition) (startChar endChar : Nat) :
    List Nat :=
  findGo startChar endChar pageItems 0

/-- The strict citation matcher: reject short queries, pure numbers, a missing
    hint page and pages without fragments; otherwise look for the first exact
    occurrence of the normalized query in the page's lowercased concatenated
    text and translate it back to fragment indices, rejecting spans that touch
    no fragment or more than five fragments.  The JavaScript falsiness test on
    the query is subsumed by the length floor; the falsiness test on the hint
    page also rejects page number 0. -/
def searchForCitedText (ti : List TextPosition) (query : String) (hintPage : Option Nat) :
    Option SearchMatch :=
  if query.length < 12 ∨ ti.length = 0 then none
  else if isPureNumber (trimChars query.data) then none
  else
    match hintPage with
    | none => none
    | some hp =>
      if hp = 0 then none
      else if (pageItemsOf ti hp).length = 0 then none
      else
        match indexOfChars (normalizeQuery query) (pageConcatLower (pageItemsOf ti hp)) 0 with
        | none => none
        | some matchIndex =>
          if 0 < (findItemsForCharRange (pageItemsOf ti hp) matchIndex
                (matchIndex + (normalizeQuery query).length)).length ∧
              (findItemsForCharRange (pageItemsOf ti hp) matchIndex
                (matchIndex + (normalizeQuery query).length)).length ≤ 5 then
            some { pageNum := hp,
                   itemIndices := findItemsForCharRange (pageItemsOf ti hp) matchIndex
                     (matchIndex + (normalizeQuery query).length),
                   exactMatch := true, confidence := 1 }
          else none

/-- Provenance of a field mapping. -/
inductive MappingOrigin where
  | manual
  | ai
  deriving Repr, DecidableEq

/-- One extracted-and-located data point, as consumed by the highlight map
    builder.  The display text field is named text as in the source. -/
structure MappingItem where
  page : Nat
  text : String
  label : String
  path : String
  origin : MappingOrigin
  verified : Bool
  citedText : Option String
  deriving Repr, DecidableEq

/-- One entry of the precomputed highlight lookup map. -/
structure PreciseHighlight where
  pageNum : Nat
  itemIndex : Nat
  path : String
  verified : Bool
  citedText : String
  deriving Repr, DecidableEq

/-- JavaScript logical-or on an optional string against a default: an absent
    or empty left operand is falsy and yields the default. -/
def jsOrElse (o : Option String) (d : String) : String :=
  match o with
  | some s => if s = "" then d else s
  | none => d

/-- The search query the highlight map builder submits for a mapping:
    citedText when truthy, else the display text. -/
def chosenSearchQuery (m : MappingItem) : String := jsOrElse m.citedText m.text

/-- The builder's skip condition: the chosen query is falsy or shorter than
    two characters. -/
def mappingSkipped (m : MappingItem) : Prop :=
  chosenSearchQuery m = "" ∨ (chosenSearchQuery m).length < 2

instance (m : MappingItem) : Decidable (mappingSkipped m) := by
  unfold mappingSkipped; infer_instance

/-- Model of JavaScript Map.prototype.set: replace the value of an existing
    key in place, otherwise append the new entry at the end. -/
def mapUpsert : List ((Nat × Nat) × PreciseHighlight) → Nat × Nat → PreciseHighlight →
    List ((Nat × Nat) × PreciseHighlight)
  | [], k, v => [(k, v)]
  | (k0, v0) :: rest, k, v =>
    if k0 = k then (k, v) :: rest else (k0, v0) :: mapUpsert rest k v

/-- Model of JavaScript Map.prototype.get. -/
def mapGet : List ((Nat × Nat) × PreciseHighlight) → Nat × Nat → Option PreciseHighlight
  | [], _ => none
  | (k0, v0) :: rest, k => if k0 = k then some v0 else mapGet rest k

/-- Process one mapping of the highlight map builder: choose the query, skip
    degenerate queries, invoke the matcher with the mapping's page, and on a
    match upsert one entry per matched item index. -/
def processMapping (ti : List TextPosition) (hl : List ((Nat × Nat) × PreciseHighlight))
    (m : MappingItem) : List ((Nat × Nat) × PreciseHighlight) :=
  if mappingSkipped m then hl
  else
    match searchForCitedText ti (chosenSearchQuery m) (some m.page) with
    | none => hl
    | some mt =>
      mt.itemIndices.foldl
        (fun acc idx =>
          mapUpsert acc (mt.pageNum, idx)
            { pageNum := mt.pageNum, itemIndex := idx, path := m.path,
              verified := m.verified,
              citedText := jsOrElse m.citedText (chosenSearchQuery m) }) hl

/-- The highlight map builder: fold over the mappings in input order starting
    from the empty map. -/
def buildPreciseHighlights (ti : List TextPosition) (mappingItems : List MappingItem) :
    List ((Nat × Nat) × PreciseHighlight) :=
  mappingItems.foldl (processMapping ti) []

/-- The entry one mapping contributes at one key of the highlight map, if
    any: defined exactly by the builder's per-mapping behaviour. -/
def mappingEntryAt (ti : List TextPosition) (m : MappingItem) (k : Nat × Nat) :
    Option PreciseHighlight :=
  if mappingSkipped m then none
  else
    match searchForCitedText ti (chosenSearchQuery m) (some m.page) with
    | none => none
    | some mt =>
      if k.1 = mt.pageNum ∧ k.2 ∈ mt.itemIndices then
        some { pageNum := mt.pageNum, itemIndex := k.2, path := m.path,
               verified := m.verified,
               citedText := jsOrElse m.citedText (chosenSearchQuery m) }
      else none

/-- The field-path inference heuristic: an ordered cascade of substring tests
    against the lowercased context, first match wins. -/
def inferFieldPath (context : String) : String :=
  let lc := String.mk (context.data.map Char.toLower)
  if strIncludes lc "author" || strIncludes lc "citation" then "studyId.citation"
  else if strIncludes lc "doi" then "studyId.doi"
  else if strIncludes lc "pmid" then "studyId.pmid"
  else if strIncludes lc "journal" then "studyId.journal"
  else if strIncludes lc "year" || strIncludes lc "published" then "studyId.year"
  else if strIncludes lc "country" || strIncludes lc "countries" then "studyId.country"
  else if strIncludes lc "sample size" || strIncludes lc "total n" ||
      strIncludes lc "patients enrolled" then "baseline.sampleSize.totalN"
  else if strIncludes lc "surgical" && strIncludes lc "n " then "baseline.sampleSize.surgicalN"
  else if strIncludes lc "control" && strIncludes lc "n " then "baseline.sampleSize.controlN"
  else if strIncludes lc "age" && strIncludes lc "mean" then "baseline.age.mean"
  else if strIncludes lc "age" && strIncludes lc "median" then "baseline.age.median"
  else if strIncludes lc "male" then "baseline.gender.maleN"
  else if strIncludes lc "female" then "baseline.gender.femaleN"
  else if strIncludes lc "nihss" then "baseline.clinicalScores.nihssMeanOrMedian"
  else if strIncludes lc "gcs" then "baseline.clinicalScores.gcsMeanOrMedian"
  else if strIncludes lc "mrs" && !strIncludes lc "outcome" then
    "baseline.clinicalScores.prestrokeMRS"
  else if strIncludes lc "population" || strIncludes lc "inclusion" ||
      strIncludes lc "eligib" then "picoT.population"
  else if strIncludes lc "intervention" && !strIncludes lc "type" then "picoT.intervention"
  else if strIncludes lc "comparator" || strIncludes lc "control group" then "picoT.comparator"
  else if strIncludes lc "outcome" && strIncludes lc "measure" then "picoT.outcomesMeasured"
  else if strIncludes lc "follow" && strIncludes lc "up" then "picoT.timingFollowUp"
  else if strIncludes lc "study type" || strIncludes lc "design" then "picoT.studyType"
  else if strIncludes lc "mortality" || strIncludes lc "death" then "outcomes.mortality"
  else if strIncludes lc "mrs" && strIncludes lc "outcome" then "outcomes.mrs"
  else if strIncludes lc "complication" || strIncludes lc "adverse" then "complications.items"
  else "extractionLog.extracted_data"

/-- Local character offset of the k-th item of a page under the matcher's
    length-plus-one-separator accounting. -/
def localStart (items : List TextPosition) (k : Nat) : Nat :=
  ((items.take k).map fun t => t.text.length + 1).sum

/-- The items carry consecutive item indices starting at j. -/
def SeqIdx (j : Nat) (items : List TextPosition) : Prop :=
  items.map (fun t => t.itemIndex) = List.range' j items.length

/-- Claim C1 exactly as stated: whenever the page's concatenated lowercased
    text contains the normalized query (original query at least 12 characters
    and not a pure number) and the fragment span covering the first occurrence
    touches at most five fragments, the matcher returns a non-null match with
    exact = true, confidence 1, and non-empty, sorted, in-range fragment
    indices.  No non-emptiness of the normalized query is assumed. -/
def claimC1 : Prop :=
  ∀ (pages : List (List String)) (query : String) (hp s : Nat),
    12 ≤ query.length →
    isPureNumber (trimChars query.data) = false →
    indexOfChars (normalizeQuery query)
      (pageConcatLower (pageItemsOf (buildIndex pages) hp)) 0 = some s →
    (findItemsForCharRange (pageItemsOf (buildIndex pages) hp) s
        (s + (normalizeQuery query).length)).length ≤ 5 →
    ∃ mt, searchForCitedText (buildIndex pages) query (some hp) = some mt ∧
      mt.exactMatch = true ∧ mt.confidence = 1 ∧ mt.itemIndices ≠ [] ∧
      mt.itemIndices.Sorted (· < ·) ∧
      ∀ i ∈ mt.itemIndices, i < (pageItemsOf (buildIndex pages) hp).length

/-- Modelled from the spec for claim C4: the query-selection rule as the spec
    words it, choosing citedText only when it is present, non-empty and of
    length at least two, and otherwise the display text. -/
def specQueryChoice (m : MappingItem) : String :=
  match m.citedText with
  | some s => if s ≠ "" ∧ 2 ≤ s.length then s else m.text
  | none => m.text

/-- Modelled from the spec for claim C4: a mapping is skipped only when
    neither text is usable, a text being usable when it is present with
    length at least two. -/
def specSkipsMapping (m : MappingItem) : Prop :=
  (∀ s, m.citedText = some s → s.length < 2) ∧ m.text.length < 2

/-- Claim C4 exactly as stated: the processed query always agrees with the
    spec's selection rule, and a mapping is skipped exactly under the spec's
    skip condition. -/
def claimC4 : Prop :=
  ∀ m : MappingItem,
    chosenSearchQuery m = specQueryChoice m ∧ (mappingSkipped m ↔ specSkipsMapping m)

/-- The amended selection rule for claim C4, matching the code: citedText is
    chosen whenever it is present and non-empty, regardless of its length. -/
def amendedQueryChoice (m : MappingItem) : String :=
  match m.citedText with
  | some s => if s = "" then m.text else s
  | none => m.text

/-- Claim C9 exactly as stated: every context whose lowercased form contains
    the substring doi is inferred to the path studyId.doi. -/
def claimC9 : Prop :=
  ∀ context : String,
    strIncludes (String.mk (context.data.map Char.toLower)) "doi" = true →
    inferFieldPath context = "studyId.doi"

theorem pageAdvance_cons (t : String) (rest : List String) :
    pageAdvance (t :: rest) = t.length + 1 + pageAdvance rest := by
  simp [pageAdvance, Nat.add_comm, Nat.add_assoc, Nat.add_left_comm]

theorem indexOfChars_some {needle : List Char} :
    ∀ {hay : List Char} {i s : Nat}, indexOfChars needle hay i = some s →
      ∃ pre post, hay = pre ++ needle ++ post ∧ s = i + pre.length := by
  intro hay
  induction hay with
  | nil =>
    intro i s h
    unfold indexOfChars at h
    by_cases hp : needle.isPrefixOf ([] : List Char)
    · have hn : needle = [] := List.prefix_nil.mp (List.isPrefixOf_iff_prefix.mp hp)
      rw [if_pos hp] at h
      exact ⟨[], [], by simp [hn], by simpa using (Option.some_inj.mp h).symm⟩
    · rw [if_neg hp] at h
      exact absurd h (by simp)
  | cons c rest ih =>
    intro i s h
    unfold indexOfChars at h
    by_cases hp : needle.isPrefixOf (c :: rest)
    · rw [if_pos hp] at h
      rcases List.isPrefixOf_iff_prefix.mp hp with ⟨t, ht⟩
      exact ⟨[], t, by simp [ht], by simpa using (Option.some_inj.mp h).symm⟩
    · rw [if_neg hp] at h
      rcases ih h with ⟨pre, post, hdec, hs⟩
      exact ⟨c :: pre, post, by simp [hdec], by simp [hs]; omega⟩

theorem indexPage_mem_charEnd :
    ∀ (items : List String) (p idx off : Nat),
      ∀ t ∈ indexPage p idx off items, t.charEnd = t.charStart + t.text.length := by
  intro items
  induction items with
  | nil => intro p idx off t ht; simp [indexPage] at ht
  | cons s rest ih =>
    intro p idx off t ht
    rcases List.mem_cons.mp ht with h | h
    · subst h; rfl
    · exact ih p (idx + 1) (off + s.length + 1) t h

theorem indexPage_mem_pageNum :
    ∀ (items : List String) (p idx off : Nat),
      ∀ t ∈ indexPage p idx off items, t.pageNum = p := by
  intro items
  induction items with
  | nil => intro p idx off t ht; simp [indexPage] at ht
  | cons s rest ih =>
    intro p idx off t ht
    rcases List.mem_cons.mp ht with h | h
    · subst h; rfl
    · exact ih p (idx + 1) (off + s.length + 1) t h

theorem buildIndexFrom_mem_charEnd :
    ∀ (pages : List (List String)) (sp off : Nat),
      ∀ t ∈ buildIndexFrom sp off pages, t.charEnd = t.charStart + t.text.length := by
  intro pages
  induction pages with
  | nil => intro sp off t ht; simp [buildIndexFrom] at ht
  | cons pg rest ih =>
    intro sp off t ht
    rcases List.mem_append.mp ht with h | h
    · exact indexPage_mem_charEnd pg sp 0 off t h
    · exact ih (sp + 1) (off + pageAdvance pg) t h

theorem buildIndexFrom_mem_pageNum_ge :
    ∀ (pages : List (List String)) (sp off : Nat),
      ∀ t ∈ buildIndexFrom sp off pages, sp ≤ t.pageNum := by
  intro pages
  induction pages with
  | nil => intro sp off t ht; simp [buildIndexFrom] at ht
  | cons pg rest ih =>
    intro sp off t ht
    rcases List.mem_append.mp ht with h | h
    · exact le_of_eq (indexPage_mem_pageNum pg sp 0 off t h).symm
    · exact le_trans (Nat.le_succ sp) (ih (sp + 1) (off + pageAdvance pg) t h)

theorem indexPage_head_charStart :
    ∀ (items : List String) (p idx off : Nat),
      ∀ y ∈ (indexPage p idx off items).head?, y.charStart = off := by
  intro items p idx off y hy
  cases items with
  | nil => simp [indexPage] at hy
  | cons s rest =>
    simp only [indexPage, List.head?_cons, Option.mem_def, Option.some_inj] at hy
    subst hy; rfl

theorem buildIndexFrom_head_charStart :
    ∀ (pages : List (List String)) (sp off : Nat),
      ∀ y ∈ (buildIndexFrom sp off pages).head?, y.charStart = off := by
  intro pages
  induction pages with
  | nil => intro sp off y hy; simp [buildIndexFrom] at hy
  | cons pg rest ih =>
    intro sp off y hy
    cases pg with
    | nil =>
      simp only [buildIndexFrom, indexPage, List.nil_append] at hy
      have := ih (sp + 1) (off + pageAdvance []) y hy
      simpa [pageAdvance] using this
    | cons s tl =>
      simp only [buildIndexFrom, indexPage, List.cons_append, List.head?_cons,
        Option.mem_def, Option.some_inj] at hy
      subst hy; rfl

theorem indexPage_getLast_charEnd :
    ∀ (items : List String) (p idx off : Nat),
      ∀ x ∈ (indexPage p idx off items).getLast?, x.charEnd + 1 = off + pageAdvance items := by
  intro items
  induction items with
  | nil => intro p idx off x hx; simp [indexPage] at hx
  | cons s rest ih =>
    intro p idx off x hx
    cases rest with
    | nil =>
      simp only [indexPage, List.getLast?_singleton, Option.mem_def, Option.some_inj] at hx
      subst hx
      simp [pageAdvance, Nat.add_assoc]
    | cons s2 rest2 =>
      rw [show indexPage p idx off (s :: s2 :: rest2) =
          { pageNum := p, itemIndex := idx, text := s,
            normalizedText := String.mk (trimChars (s.data.map Char.toLower)),
            charStart := off, charEnd := off + s.length } ::
            indexPage p (idx + 1) (off + s.length + 1) (s2 :: rest2) from rfl,
        show indexPage p (idx + 1) (off + s.length + 1) (s2 :: rest2) =
          { pageNum := p, itemIndex := idx + 1, text := s2,
            normalizedText := String.mk (trimChars (s2.data.map Char.toLower)),
            charStart := off + s.length + 1,
            charEnd := off + s.length + 1 + s2.length } ::
            indexPage p (idx + 2) (off + s.length + 1 + s2.length + 1) rest2 from rfl,
        List.getLast?_cons_cons] at hx
      have := ih p (idx + 1) (off + s.length + 1) x (by
        rw [show indexPage p (idx + 1) (off + s.length + 1) (s2 :: rest2) =
          { pageNum := p, itemIndex := idx + 1, text := s2,
            normalizedText := String.mk (trimChars (s2.data.map Char.toLower)),
            charStart := off + s.length + 1,
            charEnd := off + s.length + 1 + s2.length } ::
            indexPage p (idx + 2) (off + s.length + 1 + s2.length + 1) rest2 from rfl]
        exact hx)
      rw [this, pageAdvance_cons s (s2 :: rest2)]
      omega

theorem indexPage_chain :
    ∀ (items : List String) (p idx off : Nat),
      List.Chain' (fun a b => b.charStart = a.charEnd + 1) (indexPage p idx off items) := by
  intro items
  induction items with
  | nil => intro p idx off; simp [indexPage]
  | cons s rest ih =>
    intro p idx off
    rw [show indexPage p idx off (s :: rest) =
        { pageNum := p, itemIndex := idx, text := s,
          normalizedText := String.mk (trimChars (s.data.map Char.toLower)),
          charStart := off, charEnd := off + s.length } ::
          indexPage p (idx + 1) (off + s.length + 1) rest from rfl]
    refine List.chain'_cons'.mpr ⟨?_, ih p (idx + 1) (off + s.length + 1)⟩
    intro y hy
    rw [indexPage_head_charStart rest p (idx + 1) (off + s.length + 1) y hy]

theorem buildIndexFrom_chain :
    ∀ (pages : List (List String)) (sp off : Nat),
      List.Chain' (fun a b => b.charStart = a.charEnd + 1) (buildIndexFrom sp off pages) := by
  intro pages
  induction pages with
  | nil => intro sp off; simp [buildIndexFrom]
  | cons pg rest ih =>
    intro sp off
    rw [show buildIndexFrom sp off (pg :: rest) =
        indexPage sp 0 off pg ++ buildIndexFrom (sp + 1) (off + pageAdvance pg) rest from rfl]
    refine List.chain'_append.mpr ⟨indexPage_chain pg sp 0 off,
      ih (sp + 1) (off + pageAdvance pg), ?_⟩
    intro x hx y hy
    have h1 := indexPage_getLast_charEnd pg sp 0 off x hx
    have h2 := buildIndexFrom_head_charStart rest (sp + 1) (off + pageAdvance pg) y hy
    omega

/-- Claim C3: after buildIndex, every fragment satisfies
    charEnd = charStart + length of its raw text, and consecutive fragments in
    whole-document order satisfy next.charStart = previous.charEnd + 1. -/
theorem buildIndex_offset_invariant (pages : List (List String)) :
    (∀ t ∈ buildIndex pages, t.charEnd = t.charStart + t.text.length) ∧
      List.Chain' (fun a b => b.charStart = a.charEnd + 1) (buildIndex pages) :=
  ⟨buildIndexFrom_mem_charEnd pages 1 0, buildIndexFrom_chain pages 1 0⟩

/-- Witness for claim C3 at the concrete document with pages
    consisting of the fragments ab, empty, and c. -/
theorem buildIndex_offset_invariant_witness :
    ({ pageNum := 1, itemIndex := 0, text := "ab", normalizedText := "ab",
       charStart := 0, charEnd := 2 } : TextPosition).charEnd =
      ({ pageNum := 1, itemIndex := 0, text := "ab", normalizedText := "ab",
         charStart := 0, charEnd := 2 } : TextPosition).charStart + ("ab").length ∧
    List.Chain' (fun a b => b.charStart = a.charEnd + 1) (buildIndex [["ab", ""], ["c"]]) :=
  ⟨(buildIndex_offset_invariant [["ab", ""], ["c"]]).1 _ (by decide),
   (buildIndex_offset_invariant [["ab", ""], ["c"]]).2⟩

/-- Claim C6: every query shorter than 12 characters is rejected, whatever
    the index content and the hint page. -/
theorem search_length_floor (ti : List TextPosition) (query : String) (hintPage : Option Nat)
    (h : query.length < 12) : searchForCitedText ti query hintPage = none := by
  unfold searchForCitedText
  rw [if_pos (Or.inl h)]

/-- Witness for claim C6: the five-character query short is rejected on an
    index that contains it. -/
theorem search_length_floor_witness :
    searchForCitedText (buildIndex [["short"]]) "short" (some 1) = none :=
  search_length_floor (buildIndex [["short"]]) "short" (some 1) (by decide)

/-- Claim C7: every query whose trimmed form is a pure number is rejected,
    whatever the index content and the hint page. -/
theorem search_numeric_reject (ti : List TextPosition) (query : String) (hintPage : Option Nat)
    (h : isPureNumber (trimChars query.data) = true) :
    searchForCitedText ti query hintPage = none := by
  unfold searchForCitedText
  by_cases h1 : query.length < 12 ∨ ti.length = 0
  · rw [if_pos h1]
  · rw [if_neg h1, if_pos h]

/-- Witness for claim C7: the queries 45 and 8.5 are rejected on a page that
    literally contains both. -/
theorem search_numeric_reject_witness :
    searchForCitedText (buildIndex [["45", "8.5"]]) "45" (some 1) = none ∧
      searchForCitedText (buildIndex [["45", "8.5"]]) "8.5" (some 1) = none :=
  ⟨search_numeric_reject (buildIndex [["45", "8.5"]]) "45" (some 1) (by decide),
   search_numeric_reject (buildIndex [["45", "8.5"]]) "8.5" (some 1) (by decide)⟩

/-- Claim C8: an absent hint page always yields a null result, for every
    query and every index content. -/
theorem search_no_hint_page (ti : List TextPosition) (query : String) :
    searchForCitedText ti query none = none := by
  unfold searchForCitedText
  by_cases h1 : query.length < 12 ∨ ti.length = 0
  · rw [if_pos h1]
  · rw [if_neg h1]
    by_cases h2 : isPureNumber (trimChars query.data) = true
    · rw [if_pos h2]
    · rw [if_neg h2]

/-- Inversion of a successful search: the matched index position, the shape
    of the returned record, and the span bounds. -/
theorem search_some_inv {ti : List TextPosition} {query : String} {hp : Nat}
    {mt : SearchMatch} (h : searchForCitedText ti query (some hp) = some mt) :
    ∃ s, indexOfChars (normalizeQuery query)
        (pageConcatLower (pageItemsOf ti hp)) 0 = some s ∧
      mt = { pageNum := hp,
             itemIndices := findItemsForCharRange (pageItemsOf ti hp) s
               (s + (normalizeQuery query).length),
             exactMatch := true, confidence := 1 } ∧
      0 < mt.itemIndices.length ∧ mt.itemIndices.length ≤ 5 := by
  simp only [searchForCitedText] at h
  by_cases h1 : query.length < 12 ∨ ti.length = 0
  · rw [if_pos h1] at h; cases h
  rw [if_neg h1] at h
  by_cases h2 : isPureNumber (trimChars query.data) = true
  · rw [if_pos h2] at h; cases h
  rw [if_neg h2] at h
  by_cases h3 : hp = 0
  · rw [if_pos h3] at h; cases h
  rw [if_neg h3] at h
  by_cases h4 : (pageItemsOf ti hp).length = 0
  · rw [if_pos h4] at h; cases h
  rw [if_neg h4] at h
  rcases hidx : indexOfChars (normalizeQuery query) (pageConcatLower (pageItemsOf ti hp)) 0 with
    _ | s
  · rw [hidx] at h; exact absurd h (by simp)
  · rw [hidx] at h
    have h' : (if 0 < (findItemsForCharRange (pageItemsOf ti hp) s
          (s + (normalizeQuery query).length)).length ∧
        (findItemsForCharRange (pageItemsOf ti hp) s
          (s + (normalizeQuery query).length)).length ≤ 5 then
        some { pageNum := hp,
               itemIndices := findItemsForCharRange (pageItemsOf ti hp) s
                 (s + (normalizeQuery query).length),
               exactMatch := true, confidence := (1 : ℚ) }
      else (none : Option SearchMatch)) = some mt := h
    by_cases h5 : 0 < (findItemsForCharRange (pageItemsOf ti hp) s
          (s + (normalizeQuery query).length)).length ∧
        (findItemsForCharRange (pageItemsOf ti hp) s
          (s + (normalizeQuery query).length)).length ≤ 5
    · rw [if_pos h5] at h'
      refine ⟨s, rfl, (Option.some_inj.mp h').symm, ?_, ?_⟩
      · rw [← Option.some_inj.mp h']; exact h5.1
      · rw [← Option.some_inj.mp h']; exact h5.2
    · rw [if_neg h5] at h'; exact absurd h' (by simp)

/-- Claim C2: when the page's concatenated lowercased text does contain the
    normalized query, but the fragments overlapping the matched character
    range number more than five, the matcher still returns null. -/
theorem search_span_ceiling (ti : List TextPosition) (query : String) (hp s : Nat)
    (hfind : indexOfChars (normalizeQuery query)
        (pageConcatLower (pageItemsOf ti hp)) 0 = some s)
    (hbig : 5 < (findItemsForCharRange (pageItemsOf ti hp) s
        (s + (normalizeQuery query).length)).length) :
    searchForCitedText ti query (some hp) = none := by
  rcases hres : searchForCitedText ti query (some hp) with _ | mt
  · rfl
  · exfalso
    rcases search_some_inv hres with ⟨s', hidx, hmt, _, hle⟩
    rw [hfind] at hidx
    have hs : s' = s := Option.some_inj.mp hidx.symm
    have hT : mt.itemIndices = findItemsForCharRange (pageItemsOf ti hp) s'
        (s' + (normalizeQuery query).length) := by rw [hmt]
    rw [hT, hs] at hle
    exact absurd hle (by omega)

/-- Witness for claim C2: a seventeen-character query present verbatim on the
    page but spanning six fragments is rejected. -/
theorem search_span_ceiling_witness :
    searchForCitedText (buildIndex [["aa", "bb", "cc", "dd", "ee", "ff"]])
      "aa bb cc dd ee ff" (some 1) = none :=
  search_span_ceiling (buildIndex [["aa", "bb", "cc", "dd", "ee", "ff"]])
    "aa bb cc dd ee ff" 1 0 (by decide) (by decide)

theorem str_data_length (t : String) : t.data.length = t.length := rfl

theorem localStart_zero (items : List TextPosition) : localStart items 0 = 0 := by
  simp [localStart]

theorem localStart_cons_succ (item : TextPosition) (rest : List TextPosition) (k : Nat) :
    localStart (item :: rest) (k + 1) = item.text.length + 1 + localStart rest k := by
  simp [localStart, List.take_succ_cons]

theorem seqIdx_nil (j : Nat) : SeqIdx j [] := by simp [SeqIdx]

theorem seqIdx_cons {j : Nat} {item : TextPosition} {rest : List TextPosition}
    (h : SeqIdx j (item :: rest)) : item.itemIndex = j ∧ SeqIdx (j + 1) rest := by
  unfold SeqIdx at h ⊢
  rw [List.length_cons, List.range'_succ, List.map_cons] at h
  injection h with h1 h2
  exact ⟨h1, h2⟩

theorem findGo_mem_map {startChar endChar : Nat} :
    ∀ (items : List TextPosition) (curr x : Nat),
      x ∈ findGo startChar endChar items curr → x ∈ items.map fun t => t.itemIndex := by
  intro items
  induction items with
  | nil => intro curr x hx; simp [findGo] at hx
  | cons item rest ih =>
    intro curr x hx
    simp only [findGo] at hx
    rw [List.map_cons]
    by_cases hc : startChar < curr + item.text.length ∧ curr < endChar
    · rw [if_pos hc] at hx
      rcases List.mem_cons.mp hx with h | h
      · rw [h]; exact List.mem_cons_self _ _
      · exact List.mem_cons_of_mem _ (ih _ _ h)
    · rw [if_neg hc] at hx
      exact List.mem_cons_of_mem _ (ih _ _ hx)

theorem findGo_nil_of_le {startChar endChar : Nat} :
    ∀ (items : List TextPosition) (curr : Nat), endChar ≤ curr →
      findGo startChar endChar items curr = [] := by
  intro items
  induction items with
  | nil => intro curr _; rfl
  | cons item rest ih =>
    intro curr h
    simp only [findGo]
    rw [if_neg (by omega)]
    exact ih _ (by omega)

theorem findGo_range'_from {startChar endChar : Nat} :
    ∀ (items : List TextPosition) (j curr : Nat), startChar < curr → SeqIdx j items →
      ∃ n, findGo startChar endChar items curr = List.range' j n := by
  intro items
  induction items with
  | nil => intro j curr _ _; exact ⟨0, rfl⟩
  | cons item rest ih =>
    intro j curr hlt hseq
    obtain ⟨hidx, hrest⟩ := seqIdx_cons hseq
    by_cases hce : curr < endChar
    · simp only [findGo]
      rw [if_pos ⟨by omega, hce⟩]
      obtain ⟨n, hn⟩ := ih (j + 1) (curr + item.text.length + 1) (by omega) hrest
      exact ⟨n + 1, by rw [hn, hidx, List.range'_succ]⟩
    · simp only [findGo]
      rw [if_neg (by omega : ¬(startChar < curr + item.text.length ∧ curr < endChar)),
        findGo_nil_of_le rest (curr + item.text.length + 1) (by omega)]
      exact ⟨0, rfl⟩

theorem findGo_range' {startChar endChar : Nat} :
    ∀ (items : List TextPosition) (j curr : Nat), SeqIdx j items →
      ∃ a n, findGo startChar endChar items curr = List.range' a n := by
  intro items
  induction items with
  | nil => intro j curr _; exact ⟨0, 0, rfl⟩
  | cons item rest ih =>
    intro j curr hseq
    obtain ⟨hidx, hrest⟩ := seqIdx_cons hseq
    by_cases hc : startChar < curr + item.text.length ∧ curr < endChar
    · simp only [findGo]
      rw [if_pos hc]
      obtain ⟨n, hn⟩ := @findGo_range'_from startChar endChar rest (j + 1)
        (curr + item.text.length + 1) (by omega) hrest
      exact ⟨j, n + 1, by rw [hn, hidx, List.range'_succ]⟩
    · simp only [findGo]
      rw [if_neg hc]
      exact ih (j + 1) _ hrest

theorem findGo_mem_iff {startChar endChar : Nat} :
    ∀ (items : List TextPosition) (j curr : Nat), SeqIdx j items → ∀ x : Nat,
      (x ∈ findGo startChar endChar items curr ↔
        ∃ k, k < items.length ∧ x = j + k ∧
          startChar < curr + localStart items k + (items.getD k default).text.length ∧
          curr + localStart items k < endChar) := by
  intro items
  induction items with
  | nil => intro j curr _ x; simp [findGo]
  | cons item rest ih =>
    intro j curr hseq x
    obtain ⟨hidx, hrest⟩ := seqIdx_cons hseq
    have ihx := ih (j + 1) (curr + item.text.length + 1) hrest x
    constructor
    · intro hx
      simp only [findGo] at hx
      by_cases hc : startChar < curr + item.text.length ∧ curr < endChar
      · rw [if_pos hc] at hx
        rcases List.mem_cons.mp hx with h | h
        · refine ⟨0, by simp, by omega, ?_, ?_⟩
          · rw [localStart_zero, List.getD_cons_zero]; omega
          · rw [localStart_zero]; omega
        · obtain ⟨k, hk, hxe, hc1, hc2⟩ := ihx.mp h
          refine ⟨k + 1, by simpa using Nat.succ_lt_succ hk, by omega, ?_, ?_⟩
          · rw [localStart_cons_succ, List.getD_cons_succ]; omega
          · rw [localStart_cons_succ]; omega
      · rw [if_neg hc] at hx
        obtain ⟨k, hk, hxe, hc1, hc2⟩ := ihx.mp hx
        refine ⟨k + 1, by simpa using Nat.succ_lt_succ hk, by omega, ?_, ?_⟩
        · rw [localStart_cons_succ, List.getD_cons_succ]; omega
        · rw [localStart_cons_succ]; omega
    · rintro ⟨k, hk, hxe, hc1, hc2⟩
      simp only [findGo]
      cases k with
      | zero =>
        rw [localStart_zero, List.getD_cons_zero] at hc1
        rw [localStart_zero] at hc2
        rw [if_pos ⟨by omega, by omega⟩]
        have : x = item.itemIndex := by omega
        rw [this]
        exact List.mem_cons_self _ _
      | succ k =>
        rw [localStart_cons_succ, List.getD_cons_succ] at hc1
        rw [localStart_cons_succ] at hc2
        have hmem : x ∈ findGo startChar endChar rest (curr + item.text.length + 1) :=
          ihx.mpr ⟨k, by simpa using Nat.lt_of_succ_lt_succ hk, by omega,
            by omega, by omega⟩
        by_cases hc : startChar < curr + item.text.length ∧ curr < endChar
        · rw [if_pos hc]; exact List.mem_cons_of_mem _ hmem
        · rw [if_neg hc]; exact hmem

theorem indexPage_map_itemIndex :
    ∀ (items : List String) (p idx off : Nat),
      (indexPage p idx off items).map (fun t => t.itemIndex) = List.range' idx items.length := by
  intro items
  induction items with
  | nil => intro p idx off; rfl
  | cons s rest ih =>
    intro p idx off
    simp only [indexPage, List.map_cons, List.length_cons, List.range'_succ]
    rw [ih p (idx + 1) (off + s.length + 1)]

theorem indexPage_length (items : List String) (p idx off : Nat) :
    (indexPage p idx off items).length = items.length := by
  have h := congrArg List.length (indexPage_map_itemIndex items p idx off)
  simpa using h

theorem seqIdx_pageItems_buildIndexFrom :
    ∀ (pages : List (List String)) (sp off hp : Nat),
      SeqIdx 0 (pageItemsOf (buildIndexFrom sp off pages) hp) := by
  intro pages
  induction pages with
  | nil => intro sp off hp; exact seqIdx_nil 0
  | cons pg rest ih =>
    intro sp off hp
    unfold pageItemsOf buildIndexFrom
    rw [List.filter_append]
    by_cases hhp : hp = sp
    · subst hhp
      have hblock : (indexPage hp 0 off pg).filter (fun t => t.pageNum == hp) =
          indexPage hp 0 off pg :=
        List.filter_eq_self.mpr (fun t ht => by
          have h := indexPage_mem_pageNum pg hp 0 off t ht
          simp [h])
      have hrest0 : (buildIndexFrom (hp + 1) (off + pageAdvance pg) rest).filter
          (fun t => t.pageNum == hp) = [] :=
        List.filter_eq_nil_iff.mpr (fun t ht => by
          have h := buildIndexFrom_mem_pageNum_ge rest (hp + 1) (off + pageAdvance pg) t ht
          simp only [beq_iff_eq]
          omega)
      rw [hblock, hrest0, List.append_nil]
      unfold SeqIdx
      rw [indexPage_map_itemIndex, indexPage_length]
    · have hblock : (indexPage sp 0 off pg).filter (fun t => t.pageNum == hp) = [] :=
        List.filter_eq_nil_iff.mpr (fun t ht => by
          have h := indexPage_mem_pageNum pg sp 0 off t ht
          simp only [beq_iff_eq]
          omega)
      rw [hblock, List.nil_append]
      exact ih (sp + 1) (off + pageAdvance pg) hp

theorem seqIdx_pageItems (pages : List (List String)) (hp : Nat) :
    SeqIdx 0 (pageItemsOf (buildIndex pages) hp) :=
  seqIdx_pageItems_buildIndexFrom pages 1 0 hp

theorem joinSpaceChars_map (f : Char → Char) (hf : f ' ' = ' ') :
    ∀ ls : List (List Char), (joinSpaceChars ls).map f = joinSpaceChars (ls.map (List.map f)) := by
  intro ls
  induction ls with
  | nil => rfl
  | cons t rest ih =>
    cases rest with
    | nil => rfl
    | cons t2 rest2 =>
      simp only [joinSpaceChars, List.map_cons, List.map_append, hf]
      rw [ih]
      simp only [List.map_cons]

theorem pageConcatLower_eq (items : List TextPosition) :
    pageConcatLower items =
      joinSpaceChars (items.map fun t => t.text.data.map Char.toLower) := by
  unfold pageConcatLower pageConcat
  rw [joinSpaceChars_map Char.toLower (by decide), List.map_map]
  rfl

theorem dropWhile_head_false (p : Char → Bool) :
    ∀ (l : List Char) (c : Char) (rest : List Char), l.dropWhile p = c :: rest →
      p c = false := by
  intro l
  induction l with
  | nil => intro c rest h; simp [List.dropWhile] at h
  | cons a l ih =>
    intro c rest h
    rw [List.dropWhile_cons] at h
    by_cases hp : p a = true
    · rw [if_pos hp] at h
      exact ih c rest h
    · rw [if_neg hp] at h
      injection h with h1 _
      rw [← h1]
      exact Bool.not_eq_true _ |>.mp hp

theorem dropTrailingWs_prefix (l : List Char) : dropTrailingWs l <+: l := by
  unfold dropTrailingWs
  have h := List.dropWhile_suffix (l := l.reverse) Char.isWhitespace
  have h2 := List.reverse_prefix.mpr h
  rwa [List.reverse_reverse] at h2

theorem trimChars_head_not_ws (l : List Char) (c : Char) (rest : List Char)
    (h : trimChars l = c :: rest) : c.isWhitespace = false := by
  have hpre : c :: rest <+: l.dropWhile Char.isWhitespace := by
    rw [← h]
    exact dropTrailingWs_prefix (l.dropWhile Char.isWhitespace)
  rcases hpre with ⟨t, ht⟩
  exact dropWhile_head_false Char.isWhitespace l c (rest ++ t) (by rw [← ht]; rfl)

theorem collapseWs_head_eq {c : Char} (hc : c.isWhitespace = false) (l : List Char) :
    collapseWsChars (c :: l) = c :: collapseWsAux false l := by
  unfold collapseWsChars
  rw [collapseWsAux]
  rw [if_neg (by simp [hc])]

theorem normalizeQuery_head_not_ws (q : String) (c : Char) (rest : List Char)
    (h : normalizeQuery q = c :: rest) : c.isWhitespace = false := by
  unfold normalizeQuery at h
  rcases htrim : trimChars (q.data.map Char.toLower) with _ | ⟨c0, r0⟩
  · rw [htrim] at h
    simp [collapseWsChars, collapseWsAux] at h
  · have hc0 := trimChars_head_not_ws _ _ _ htrim
    rw [htrim, collapseWs_head_eq hc0] at h
    injection h with h1 _
    rw [← h1]
    exact hc0

theorem findGo_ne_nil {L : Nat} (hL : 0 < L) :
    ∀ (items : List TextPosition) (curr s : Nat), curr ≤ s →
      s - curr < (joinSpaceChars (items.map fun t => t.text.data.map Char.toLower)).length →
      (joinSpaceChars (items.map fun t => t.text.data.map Char.toLower)).getD
        (s - curr) ' ' ≠ ' ' →
      findGo s (s + L) items curr ≠ [] := by
  intro items
  induction items with
  | nil => intro curr s _ hlen _; simp [joinSpaceChars] at hlen
  | cons item rest ih =>
    intro curr s hcs hlen hchar
    cases rest with
    | nil =>
      simp only [List.map_cons, List.map_nil, joinSpaceChars, List.length_map,
        str_data_length] at hlen
      simp only [findGo]
      rw [if_pos ⟨by omega, by omega⟩]
      simp
    | cons r2 rrest =>
      rw [show (item :: r2 :: rrest).map (fun t => t.text.data.map Char.toLower) =
          (item.text.data.map Char.toLower) ::
            (r2 :: rrest).map (fun t => t.text.data.map Char.toLower) from rfl] at hlen hchar
      rw [show joinSpaceChars ((item.text.data.map Char.toLower) ::
            (r2 :: rrest).map (fun t => t.text.data.map Char.toLower)) =
          (item.text.data.map Char.toLower) ++ ' ' ::
            joinSpaceChars ((r2 :: rrest).map fun t => t.text.data.map Char.toLower)
          from rfl] at hlen hchar
      rw [List.length_append, List.length_cons, List.length_map, str_data_length] at hlen
      by_cases hin : s - curr < item.text.length
      · simp only [findGo]
        rw [if_pos ⟨by omega, by omega⟩]
        simp
      · rw [List.getD_append_right _ _ _ _
            (by rw [List.length_map, str_data_length]; omega)] at hchar
        rw [List.length_map, str_data_length] at hchar
        rcases hdiff : s - curr - item.text.length with _ | d
        · rw [hdiff, List.getD_cons_zero] at hchar
          exact absurd rfl hchar
        · rw [hdiff, List.getD_cons_succ] at hchar
          have htail : findGo s (s + L) (r2 :: rrest) (curr + item.text.length + 1) ≠ [] := by
            refine ih (curr + item.text.length + 1) s (by omega) (by omega) ?_
            have hidx2 : s - (curr + item.text.length + 1) = d := by omega
            rw [hidx2]
            exact hchar
          simp only [findGo]
          by_cases hc : s < curr + item.text.length ∧ curr < s + L
          · rw [if_pos hc]; simp
          · rw [if_neg hc]; exact htail

theorem search_some_of {ti : List TextPosition} {query : String} {hp s : Nat}
    (h1 : ¬(query.length < 12 ∨ ti.length = 0))
    (h2 : isPureNumber (trimChars query.data) = false)
    (h3 : ¬hp = 0)
    (h4 : ¬(pageItemsOf ti hp).length = 0)
    (h5 : indexOfChars (normalizeQuery query) (pageConcatLower (pageItemsOf ti hp)) 0 = some s)
    (h6 : 0 < (findItemsForCharRange (pageItemsOf ti hp) s
        (s + (normalizeQuery query).length)).length)
    (h7 : (findItemsForCharRange (pageItemsOf ti hp) s
        (s + (normalizeQuery query).length)).length ≤ 5) :
    searchForCitedText ti query (some hp) =
      some { pageNum := hp,
             itemIndices := findItemsForCharRange (pageItemsOf ti hp) s
               (s + (normalizeQuery query).length),
             exactMatch := true, confidence := 1 } := by
  simp only [searchForCitedText, h5]
  rw [if_neg h1, if_neg (by simp [h2]), if_neg h3, if_neg h4, if_pos ⟨h6, h7⟩]

/-- Claim C1, amended: under the stated containment and span hypotheses, and
    additionally that the normalized query is non-empty (an all-whitespace
    query normalizes to the empty string and is never matched), the matcher
    returns a non-null match with exact = true, confidence 1, and non-empty,
    sorted, in-range fragment indices. -/
theorem search_exact_containment
    (pages : List (List String)) (query : String) (hp s : Nat)
    (hlen : 12 ≤ query.length)
    (hnum : isPureNumber (trimChars query.data) = false)
    (hnq : normalizeQuery query ≠ [])
    (hfound : indexOfChars (normalizeQuery query)
        (pageConcatLower (pageItemsOf (buildIndex pages) hp)) 0 = some s)
    (hspan : (findItemsForCharRange (pageItemsOf (buildIndex pages) hp) s
        (s + (normalizeQuery query).length)).length ≤ 5) :
    ∃ mt, searchForCitedText (buildIndex pages) query (some hp) = some mt ∧
      mt.exactMatch = true ∧ mt.confidence = 1 ∧ mt.itemIndices ≠ [] ∧
      mt.itemIndices.Sorted (· < ·) ∧
      ∀ i ∈ mt.itemIndices, i < (pageItemsOf (buildIndex pages) hp).length := by
  rcases hnqc : normalizeQuery query with _ | ⟨c, nqrest⟩
  · exact absurd hnqc hnq
  by_cases hpi0 : pageItemsOf (buildIndex pages) hp = []
  · rw [hnqc, hpi0] at hfound
    simp [indexOfChars, pageConcatLower, pageConcat, joinSpaceChars, List.isPrefixOf]
      at hfound
  obtain ⟨it0, hmemf⟩ := List.exists_mem_of_ne_nil _ hpi0
  have hmemf' : it0 ∈ List.filter (fun t => t.pageNum == hp) (buildIndex pages) := hmemf
  have hmem0 : it0 ∈ buildIndex pages := List.mem_of_mem_filter hmemf'
  have hpage : it0.pageNum = hp := by
    have h := List.of_mem_filter hmemf'
    simpa [beq_iff_eq] using h
  have hp1 : 1 ≤ it0.pageNum := buildIndexFrom_mem_pageNum_ge pages 1 0 it0 hmem0
  have hp0 : ¬hp = 0 := by omega
  have htine : buildIndex pages ≠ [] := List.ne_nil_of_mem hmem0
  have h1 : ¬(query.length < 12 ∨ (buildIndex pages).length = 0) := by
    rintro (h | h)
    · omega
    · exact htine (List.length_eq_zero.mp h)
  have h4 : ¬(pageItemsOf (buildIndex pages) hp).length = 0 := by
    intro h
    exact hpi0 (List.length_eq_zero.mp h)
  have hcws : c.isWhitespace = false := normalizeQuery_head_not_ws query c nqrest hnqc
  have hcsp : c ≠ ' ' := by
    intro he
    rw [he] at hcws
    exact absurd hcws (by decide)
  rcases indexOfChars_some (by rw [← hnqc]; exact hfound :
      indexOfChars (c :: nqrest) (pageConcatLower (pageItemsOf (buildIndex pages) hp)) 0 =
        some s) with ⟨pre, post, hdec, hsval⟩
  have hspre : s = pre.length := by omega
  have hlen_s : s < (pageConcatLower (pageItemsOf (buildIndex pages) hp)).length := by
    rw [hdec]
    simp [List.length_append]
    omega
  have hchar : (pageConcatLower (pageItemsOf (buildIndex pages) hp)).getD s ' ' = c := by
    rw [hdec, List.append_assoc, List.cons_append,
      List.getD_append_right _ _ _ _ (by omega)]
    have h0 : s - pre.length = 0 := by omega
    rw [h0, List.getD_cons_zero]
  have hLpos : 0 < (normalizeQuery query).length := by rw [hnqc]; simp
  have hne : findGo s (s + (normalizeQuery query).length)
      (pageItemsOf (buildIndex pages) hp) 0 ≠ [] := by
    refine findGo_ne_nil hLpos (pageItemsOf (buildIndex pages) hp) 0 s (Nat.zero_le s)
      ?_ ?_
    · rw [← pageConcatLower_eq]
      simpa using hlen_s
    · rw [← pageConcatLower_eq]
      have hz : s - 0 = s := by omega
      rw [hz, hchar]
      exact hcsp
  have h6 : 0 < (findItemsForCharRange (pageItemsOf (buildIndex pages) hp) s
      (s + (normalizeQuery query).length)).length := by
    have hne' : findItemsForCharRange (pageItemsOf (buildIndex pages) hp) s
        (s + (normalizeQuery query).length) ≠ [] := hne
    exact List.length_pos.mpr hne'
  refine ⟨_, search_some_of h1 hnum hp0 h4 hfound h6 hspan, rfl, rfl, ?_, ?_, ?_⟩
  · exact List.ne_nil_of_length_pos h6
  · have hseq := seqIdx_pageItems pages hp
    obtain ⟨a, n, hr⟩ := @findGo_range' s (s + (normalizeQuery query).length)
      (pageItemsOf (buildIndex pages) hp) 0 0 hseq
    show List.Sorted (· < ·) (findItemsForCharRange (pageItemsOf (buildIndex pages) hp) s
      (s + (normalizeQuery query).length))
    rw [findItemsForCharRange, hr]
    exact List.pairwise_lt_range' a n
  · intro i hi
    have hseq := seqIdx_pageItems pages hp
    have hmap : i ∈ (pageItemsOf (buildIndex pages) hp).map fun t => t.itemIndex :=
      findGo_mem_map (pageItemsOf (buildIndex pages) hp) 0 i hi
    rw [hseq] at hmap
    have := List.mem_range'_1.mp hmap
    omega

/-- Counterexample to claim C1 as stated: the twelve-space query normalizes
    to the empty string, which the page text trivially contains with a
    zero-fragment covering span, yet the matcher returns null. -/
theorem search_exact_containment_counterexample : ¬claimC1 := by
  intro h
  rcases h [["hello world abcdef"]] "            " 1 0 (by decide) (by decide) (by decide)
      (by decide) with ⟨mt, hmt, _⟩
  have hnone : searchForCitedText (buildIndex [["hello world abcdef"]]) "            "
      (some 1) = none := by decide
  rw [hnone] at hmt
  cases hmt

/-- Witness for the amended claim C1: the twenty-character query of scenario A
    is found on its page, covering four fragments. -/
theorem search_exact_containment_witness :
    ∃ mt, searchForCitedText (buildIndex [["Sample", "size", "was", "42", "patients", "total."]])
        "size was 42 patients" (some 1) = some mt ∧
      mt.exactMatch = true ∧ mt.confidence = 1 ∧ mt.itemIndices ≠ [] ∧
      mt.itemIndices.Sorted (· < ·) ∧
      ∀ i ∈ mt.itemIndices,
        i < (pageItemsOf (buildIndex [["Sample", "size", "was", "42", "patients", "total."]])
          1).length :=
  search_exact_containment [["Sample", "size", "was", "42", "patients", "total."]]
    "size was 42 patients" 1 7 (by decide) (by decide) (by decide) (by decide) (by decide)

/-- Claim C10: every non-null match on a built index has fragment indices
    forming a run of consecutive integers, and an empty-text fragment is
    included exactly when its local character position lies strictly inside
    the matched character range. -/
theorem searchMatch_contiguous (pages : List (List String)) (query : String) (hp : Nat)
    (mt : SearchMatch)
    (hm : searchForCitedText (buildIndex pages) query (some hp) = some mt) :
    (∃ a, mt.itemIndices = List.range' a mt.itemIndices.length) ∧
    ∀ s, indexOfChars (normalizeQuery query)
        (pageConcatLower (pageItemsOf (buildIndex pages) hp)) 0 = some s →
      ∀ k, k < (pageItemsOf (buildIndex pages) hp).length →
        ((pageItemsOf (buildIndex pages) hp).getD k default).text = "" →
        (((pageItemsOf (buildIndex pages) hp).getD k default).itemIndex ∈ mt.itemIndices ↔
          s < localStart (pageItemsOf (buildIndex pages) hp) k ∧
            localStart (pageItemsOf (buildIndex pages) hp) k <
              s + (normalizeQuery query).length) := by
  obtain ⟨s0, hidx0, hmt, hpos, hle⟩ := search_some_inv hm
  have hseq := seqIdx_pageItems pages hp
  have hii : mt.itemIndices = findItemsForCharRange (pageItemsOf (buildIndex pages) hp) s0
      (s0 + (normalizeQuery query).length) := by rw [hmt]
  constructor
  · obtain ⟨a, n, hr⟩ := @findGo_range' s0 (s0 + (normalizeQuery query).length)
      (pageItemsOf (buildIndex pages) hp) 0 0 hseq
    refine ⟨a, ?_⟩
    rw [hii, findItemsForCharRange, hr, List.length_range']
  · intro s hs k hk htext
    have hss : s0 = s := by
      rw [hidx0] at hs
      exact Option.some_inj.mp hs
    have hidxk : ((pageItemsOf (buildIndex pages) hp).getD k default).itemIndex = k := by
      have h1 := List.getD_map (pageItemsOf (buildIndex pages) hp)
        (default : TextPosition) (n := k) (fun t => t.itemIndex)
      rw [hseq] at h1
      rw [← h1, List.getD_eq_getElem _ _ (by simpa using hk), List.getElem_range']
      omega
    have hlen0 : ((pageItemsOf (buildIndex pages) hp).getD k default).text.length = 0 := by
      rw [htext]; rfl
    have hiff := @findGo_mem_iff s0 (s0 + (normalizeQuery query).length)
      (pageItemsOf (buildIndex pages) hp) 0 0 hseq
      (((pageItemsOf (buildIndex pages) hp).getD k default).itemIndex)
    rw [hii, findItemsForCharRange, hiff, hidxk]
    constructor
    · rintro ⟨k', hk', hkk, hc1, hc2⟩
      have hkeq : k' = k := by omega
      subst hkeq
      rw [hlen0] at hc1
      constructor <;> omega
    · rintro ⟨hA, hB⟩
      exact ⟨k, hk, by omega, by rw [hlen0]; omega, by omega⟩

/-- Witness for claim C10: scenario A's match, whose fragment indices are the
    consecutive run starting at 1, checked against the theorem. -/
theorem searchMatch_contiguous_witness :
    (∃ a, ({ pageNum := 1, itemIndices := [1, 2, 3, 4], exactMatch := true,
             confidence := 1 } : SearchMatch).itemIndices =
      List.range' a ({ pageNum := 1, itemIndices := [1, 2, 3, 4], exactMatch := true,
                       confidence := 1 } : SearchMatch).itemIndices.length) ∧
    ∀ s, indexOfChars (normalizeQuery "size was 42 patients")
        (pageConcatLower (pageItemsOf
          (buildIndex [["Sample", "size", "was", "42", "patients", "total."]]) 1)) 0 =
          some s →
      ∀ k, k < (pageItemsOf
          (buildIndex [["Sample", "size", "was", "42", "patients", "total."]]) 1).length →
        ((pageItemsOf (buildIndex [["Sample", "size", "was", "42", "patients", "total."]])
          1).getD k default).text = "" →
        (((pageItemsOf (buildIndex [["Sample", "size", "was", "42", "patients", "total."]])
            1).getD k default).itemIndex ∈
            ({ pageNum := 1, itemIndices := [1, 2, 3, 4], exactMatch := true,
               confidence := 1 } : SearchMatch).itemIndices ↔
          s < localStart (pageItemsOf
              (buildIndex [["Sample", "size", "was", "42", "patients", "total."]]) 1) k ∧
            localStart (pageItemsOf
              (buildIndex [["Sample", "size", "was", "42", "patients", "total."]]) 1) k <
              s + (normalizeQuery "size was 42 patients").length) :=
  searchMatch_contiguous [["Sample", "size", "was", "42", "patients", "total."]]
    "size was 42 patients" 1
    { pageNum := 1, itemIndices := [1, 2, 3, 4], exactMatch := true, confidence := 1 }
    (by decide)

theorem mapGet_mapUpsert_self :
    ∀ (m : List ((Nat × Nat) × PreciseHighlight)) (k : Nat × Nat) (v : PreciseHighlight),
      mapGet (mapUpsert m k v) k = some v := by
  intro m
  induction m with
  | nil => intro k v; simp [mapUpsert, mapGet]
  | cons kv rest ih =>
    intro k v
    obtain ⟨k0, v0⟩ := kv
    by_cases hk : k0 = k
    · simp only [mapUpsert]
      rw [if_pos hk]
      simp [mapGet]
    · simp only [mapUpsert]
      rw [if_neg hk]
      simp only [mapGet]
      rw [if_neg hk]
      exact ih k v

theorem mapGet_mapUpsert_ne :
    ∀ (m : List ((Nat × Nat) × PreciseHighlight)) (k0 k : Nat × Nat) (v : PreciseHighlight),
      k0 ≠ k → mapGet (mapUpsert m k0 v) k = mapGet m k := by
  intro m
  induction m with
  | nil =>
    intro k0 k v hne
    simp only [mapUpsert, mapGet]
    rw [if_neg hne]
  | cons kv rest ih =>
    intro k0 k v hne
    obtain ⟨k1, v1⟩ := kv
    by_cases hk : k1 = k0
    · simp only [mapUpsert]
      rw [if_pos hk]
      simp only [mapGet]
      rw [if_neg hne, if_neg (by rw [hk]; exact hne)]
    · simp only [mapUpsert]
      rw [if_neg hk]
      simp only [mapGet]
      by_cases hk1 : k1 = k
      · rw [if_pos hk1, if_pos hk1]
      · rw [if_neg hk1, if_neg hk1]
        exact ih k0 k v hne

theorem mapGet_foldUpsert (pg : Nat) (theEntry : Nat → PreciseHighlight) :
    ∀ (l : List Nat) (hl : List ((Nat × Nat) × PreciseHighlight)) (k : Nat × Nat),
      mapGet (l.foldl (fun acc idx => mapUpsert acc (pg, idx) (theEntry idx)) hl) k =
        if k.1 = pg ∧ k.2 ∈ l then some (theEntry k.2) else mapGet hl k := by
  intro l
  induction l with
  | nil =>
    intro hl k
    simp only [List.foldl_nil]
    rw [if_neg (by simp)]
  | cons idx rest ih =>
    intro hl k
    rw [List.foldl_cons, ih]
    by_cases h1 : k.1 = pg ∧ k.2 ∈ rest
    · rw [if_pos h1, if_pos ⟨h1.1, List.mem_cons_of_mem _ h1.2⟩]
    · rw [if_neg h1]
      by_cases h2 : k.1 = pg ∧ k.2 = idx
      · have hkey : (pg, idx) = k := by
          obtain ⟨ka, kb⟩ := k
          obtain ⟨ha, hb⟩ := h2
          exact Prod.ext ha.symm hb.symm
        rw [hkey, mapGet_mapUpsert_self]
        rw [if_pos ⟨h2.1, by rw [h2.2]; exact List.mem_cons_self _ _⟩, h2.2]
      · have hkey : (pg, idx) ≠ k := by
          intro he
          obtain ⟨ka, kb⟩ := k
          injection he with ha hb
          exact h2 ⟨ha.symm, hb.symm⟩
        rw [mapGet_mapUpsert_ne _ _ _ _ hkey]
        rw [if_neg (by
          rintro ⟨ha, hb⟩
          rcases List.mem_cons.mp hb with hb' | hb'
          · exact h2 ⟨ha, hb'⟩
          · exact h1 ⟨ha, hb'⟩)]

theorem mapGet_processMapping (ti : List TextPosition)
    (hl : List ((Nat × Nat) × PreciseHighlight)) (m : MappingItem) (k : Nat × Nat) :
    mapGet (processMapping ti hl m) k =
      match mappingEntryAt ti m k with
      | some e => some e
      | none => mapGet hl k := by
  by_cases hs : mappingSkipped m
  · unfold processMapping mappingEntryAt
    rw [if_pos hs, if_pos hs]
  · rcases hsr : searchForCitedText ti (chosenSearchQuery m) (some m.page) with _ | mt
    · unfold processMapping mappingEntryAt
      rw [if_neg hs, if_neg hs, hsr]
    · have hE : mappingEntryAt ti m k =
          if k.1 = mt.pageNum ∧ k.2 ∈ mt.itemIndices then
            some { pageNum := mt.pageNum, itemIndex := k.2, path := m.path,
                   verified := m.verified,
                   citedText := jsOrElse m.citedText (chosenSearchQuery m) }
          else none := by
        unfold mappingEntryAt
        rw [if_neg hs, hsr]
      have hP : processMapping ti hl m =
          mt.itemIndices.foldl (fun acc idx => mapUpsert acc (mt.pageNum, idx)
            { pageNum := mt.pageNum, itemIndex := idx, path := m.path,
              verified := m.verified,
              citedText := jsOrElse m.citedText (chosenSearchQuery m) }) hl := by
        unfold processMapping
        rw [if_neg hs, hsr]
      rw [hP, hE, mapGet_foldUpsert mt.pageNum
        (fun idx => { pageNum := mt.pageNum, itemIndex := idx, path := m.path,
                      verified := m.verified,
                      citedText := jsOrElse m.citedText (chosenSearchQuery m) })
        mt.itemIndices hl k]
      by_cases hcond : k.1 = mt.pageNum ∧ k.2 ∈ mt.itemIndices
      · rw [if_pos hcond, if_pos hcond]
      · rw [if_neg hcond, if_neg hcond]

theorem mapGet_foldl_none (ti : List TextPosition) (k : Nat × Nat) :
    ∀ (ms : List MappingItem) (hl : List ((Nat × Nat) × PreciseHighlight)),
      (∀ m' ∈ ms, mappingEntryAt ti m' k = none) →
      mapGet (ms.foldl (processMapping ti) hl) k = mapGet hl k := by
  intro ms
  induction ms with
  | nil => intro hl _; rfl
  | cons m rest ih =>
    intro hl hnone
    rw [List.foldl_cons, ih _ (fun m' hm' => hnone m' (List.mem_cons_of_mem _ hm')),
      mapGet_processMapping, hnone m (List.mem_cons_self _ _)]

/-- Claim C5: in a mapping sequence, the entry found at a key of the built
    highlight map is the one written by the last mapping that writes that
    key; in particular, of two overlapping mappings, the later one in
    iteration order wins at every shared key. -/
theorem buildPreciseHighlights_last_writer_wins
    (ti : List TextPosition) (ms1 ms2 : List MappingItem) (m : MappingItem)
    (k : Nat × Nat) (e : PreciseHighlight)
    (hw : mappingEntryAt ti m k = some e)
    (hafter : ∀ m' ∈ ms2, mappingEntryAt ti m' k = none) :
    mapGet (buildPreciseHighlights ti (ms1 ++ m :: ms2)) k = some e := by
  unfold buildPreciseHighlights
  rw [List.foldl_append, List.foldl_cons,
    mapGet_foldl_none ti k ms2 _ hafter, mapGet_processMapping, hw]

/-- Witness for claim C5: two mappings with different paths both match the
    middle fragment of the page; the later mapping's entry is the one found
    at the shared key. -/
theorem buildPreciseHighlights_last_writer_wins_witness :
    mapGet (buildPreciseHighlights (buildIndex [["the", "quick brown fox jumps", "over"]])
      [{ page := 1, text := "", label := "", path := "a", origin := MappingOrigin.ai,
         verified := false, citedText := some "quick brown fox" },
       { page := 1, text := "", label := "", path := "b", origin := MappingOrigin.ai,
         verified := true, citedText := some "brown fox jumps" }]) (1, 1) =
      some { pageNum := 1, itemIndex := 1, path := "b", verified := true,
             citedText := "brown fox jumps" } :=
  buildPreciseHighlights_last_writer_wins
    (buildIndex [["the", "quick brown fox jumps", "over"]])
    [{ page := 1, text := "", label := "", path := "a", origin := MappingOrigin.ai,
       verified := false, citedText := some "quick brown fox" }] []
    { page := 1, text := "", label := "", path := "b", origin := MappingOrigin.ai,
      verified := true, citedText := some "brown fox jumps" }
    (1, 1)
    { pageNum := 1, itemIndex := 1, path := "b", verified := true,
      citedText := "brown fox jumps" }
    (by decide)
    (by intro m' hm'; exact absurd hm' (List.not_mem_nil m'))

/-- Counterexample to claim C4 as stated: a mapping whose citedText is the
    single character x and whose display text is thirteen characters long
    uses citedText as the query and is skipped, while the spec's rule would
    fall back to the display text and not skip; with the display text present
    on the page, the built map is empty although a display-text search
    succeeds. -/
theorem buildPreciseHighlights_query_choice_counterexample :
    ¬claimC4 ∧
      buildPreciseHighlights (buildIndex [["abcdefghijklm"]])
        [{ page := 1, text := "abcdefghijklm", label := "", path := "p",
           origin := MappingOrigin.ai, verified := false, citedText := some "x" }] = [] ∧
      searchForCitedText (buildIndex [["abcdefghijklm"]]) "abcdefghijklm" (some 1) ≠
        none := by
  refine ⟨?_, by decide, by decide⟩
  intro h
  have h0 := h { page := 1, text := "abcdefghijklm", label := "", path := "p",
                 origin := MappingOrigin.ai, verified := false, citedText := some "x" }
  exact absurd h0.1 (by decide)

/-- Claim C4, amended: the query is citedText whenever citedText is present
    and non-empty (regardless of its length, so a one-character citedText is
    chosen over a long display text), falling back to the display text
    otherwise; the mapping is skipped exactly when the chosen query is
    shorter than two characters, and a skipped mapping contributes no
    entries. -/
theorem buildPreciseHighlights_query_choice :
    ∀ m : MappingItem, chosenSearchQuery m = amendedQueryChoice m ∧
      (mappingSkipped m ↔ (chosenSearchQuery m).length < 2) ∧
      ∀ ti : List TextPosition, mappingSkipped m → buildPreciseHighlights ti [m] = [] := by
  intro m
  refine ⟨?_, ?_, ?_⟩
  · unfold chosenSearchQuery jsOrElse amendedQueryChoice
    cases hct : m.citedText with
    | none => rfl
    | some s => rfl
  · unfold mappingSkipped
    constructor
    · rintro (h | h)
      · rw [h]; decide
      · exact h
    · intro h
      exact Or.inr h
  · intro ti hs
    simp only [buildPreciseHighlights, List.foldl_cons, List.foldl_nil]
    unfold processMapping
    rw [if_pos hs]

/-- Witness for the amended claim C4: the mapping with one-character
    citedText keeps citedText as its query, is skipped, and contributes no
    entries on the empty index. -/
theorem buildPreciseHighlights_query_choice_witness :
    chosenSearchQuery
        { page := 1, text := "abcdefghijklm", label := "", path := "p",
          origin := MappingOrigin.ai, verified := false, citedText := some "x" } =
      amendedQueryChoice
        { page := 1, text := "abcdefghijklm", label := "", path := "p",
          origin := MappingOrigin.ai, verified := false, citedText := some "x" } ∧
    buildPreciseHighlights []
      [{ page := 1, text := "abcdefghijklm", label := "", path := "p",
         origin := MappingOrigin.ai, verified := false, citedText := some "x" }] = [] :=
  ⟨(buildPreciseHighlights_query_choice _).1,
   (buildPreciseHighlights_query_choice _).2.2 [] (by decide)⟩

/-- Counterexample to claim C9 as stated: the context author doi contains
    doi, but the author rule fires first and the inferred path is
    studyId.citation. -/
theorem inferFieldPath_doi_counterexample : ¬claimC9 := by
  intro h
  have h0 := h "author doi" (by decide)
  exact absurd h0 (by decide)

/-- Claim C9, amended: a context whose lowercased form contains doi is
    inferred to studyId.doi provided it contains neither author nor citation,
    which belong to the earlier rule of the cascade. -/
theorem inferFieldPath_doi (context : String)
    (hdoi : strIncludes (String.mk (context.data.map Char.toLower)) "doi" = true)
    (hauthor : strIncludes (String.mk (context.data.map Char.toLower)) "author" = false)
    (hcitation : strIncludes (String.mk (context.data.map Char.toLower)) "citation" = false) :
    inferFieldPath context = "studyId.doi" := by
  simp [inferFieldPath, hdoi, hauthor, hcitation]

/-- Witness for the amended claim C9: a DOI context with neither author nor
    citation present is inferred to studyId.doi. -/
theorem inferFieldPath_doi_witness :
    inferFieldPath "DOI: 10.1016/j.inat.2020.100822" = "studyId.doi" :=
  inferFieldPath_doi "DOI: 10.1016/j.inat.2020.100822" (by decide) (by decide) (by decide)

end ClinicalExtractor
